import Mathlib

/-!
Verification of the range-table generator `scripts/unicode/gen_unicode_tables.py`.

The development below is a shallow embedding of the generator's pure core:

* `parse_codepoint_range`, `parse_property_file` — the UCD line parser
  (including the recognizer regular expression `^([0-9A-Fa-f.]+)\s*;\s*([A-Za-z_]+)\b`,
  modelled as a deterministic scanner, and Python `int(_, 16)` modelled as a
  hex-digit parser that fails on empty or non-hex input);
* `merge_ranges`, `merge_valued_ranges` — the two interval-merging policies;
* `assert_disjoint_sorted` — the post-merge disjointness validator;
* `fmt_u32` and the emission pipeline of `_emit_inc` / `main`.

Machine integers in the source are Python's unbounded integers, so codepoints
are embedded as `Nat` (the parsed fields are nonnegative); the validator's
`prev_hi = -1` sentinel is embedded as `Int`.  Failure is embedded with
`Except` / `Option`.  Python's `sorted` with a tuple key is a stable sort by
lexicographic tuple order; it is embedded as `List.insertionSort` with that
key order (insertion sort is stable), and Python's string comparison is the
lexicographic order on code points, embedded by `strLtB`.
-/

namespace Zireael

/-- ASCII whitespace, as in Python's `str.strip` and the regex class `\s`
(for the ASCII repertoire of the UCD inputs). -/
def isPySpace (c : Char) : Bool :=
  c = ' ' || c = '\t' || c = '\n' || c = '\x0b' || c = '\x0c' || c = '\r'

/-- Python `str.strip`: drop whitespace from both ends. -/
def pyStrip (s : String) : String :=
  String.mk (((s.data.dropWhile isPySpace).reverse.dropWhile isPySpace).reverse)

/-- Python string comparison, lexicographic on code points
(used by `sorted` on the `(lo, hi, value)` tuples). -/
def strLtB : List Char → List Char → Bool
  | [], [] => false
  | [], _ :: _ => true
  | _ :: _, [] => false
  | a :: as, b :: bs => if a < b then true else if b < a then false else strLtB as bs

/-- Nonstrict Python string order. -/
def strLe (a b : String) : Prop :=
  strLtB a.data b.data = true ∨ a = b

instance decStrLe : ∀ a b, Decidable (strLe a b) := fun a b =>
  inferInstanceAs (Decidable (strLtB a.data b.data = true ∨ a = b))

/-- Sort key of `_merge_ranges`: Python tuple order on `(lo, hi)`. -/
def leKey2 (a b : Nat × Nat) : Prop :=
  a.1 < b.1 ∨ (a.1 = b.1 ∧ a.2 ≤ b.2)

instance decLeKey2 : DecidableRel leKey2 := fun a b =>
  inferInstanceAs (Decidable (a.1 < b.1 ∨ (a.1 = b.1 ∧ a.2 ≤ b.2)))

/-- Sort key of `_merge_valued_ranges`: Python tuple order on `(lo, hi, value)`. -/
def leKey3 (a b : Nat × Nat × String) : Prop :=
  a.1 < b.1 ∨ (a.1 = b.1 ∧ (a.2.1 < b.2.1 ∨ (a.2.1 = b.2.1 ∧ strLe a.2.2 b.2.2)))

instance decLeKey3 : DecidableRel leKey3 := fun a b =>
  inferInstanceAs
    (Decidable (a.1 < b.1 ∨ (a.1 = b.1 ∧ (a.2.1 < b.2.1 ∨ (a.2.1 = b.2.1 ∧ strLe a.2.2 b.2.2)))))

/-- Sort key of `_assert_disjoint_sorted`: Python tuple order on `(lo, hi)`,
ignoring the value component of the row. -/
def leKeyLoHi (a b : Nat × Nat × String) : Prop :=
  a.1 < b.1 ∨ (a.1 = b.1 ∧ a.2.1 ≤ b.2.1)

instance decLeKeyLoHi : DecidableRel leKeyLoHi := fun a b =>
  inferInstanceAs (Decidable (a.1 < b.1 ∨ (a.1 = b.1 ∧ a.2.1 ≤ b.2.1)))

/-- The loop of `_merge_ranges` over the sorted tail, carrying the open
interval `(curLo, curHi)`; the final interval is appended on exhaustion. -/
def mergeRangesGo (curLo curHi : Nat) : List (Nat × Nat) → List (Nat × Nat)
  | [] => [(curLo, curHi)]
  | (lo, hi) :: rest =>
    if lo ≤ curHi + 1 then mergeRangesGo curLo (max curHi hi) rest
    else (curLo, curHi) :: mergeRangesGo lo hi rest

/-- `_merge_ranges`: sort by `(lo, hi)`, then coalesce overlapping or
codepoint-adjacent ranges. -/
def merge_ranges (ranges : List (Nat × Nat)) : List (Nat × Nat) :=
  match List.insertionSort leKey2 ranges with
  | [] => []
  | (lo, hi) :: rest => mergeRangesGo lo hi rest

/-- The loop of `_merge_valued_ranges`: extend only when the value matches and
the next range overlaps or is adjacent. -/
def mergeValuedGo (curLo curHi : Nat) (curV : String) :
    List (Nat × Nat × String) → List (Nat × Nat × String)
  | [] => [(curLo, curHi, curV)]
  | (lo, hi, v) :: rest =>
    if v = curV ∧ lo ≤ curHi + 1 then mergeValuedGo curLo (max curHi hi) curV rest
    else (curLo, curHi, curV) :: mergeValuedGo lo hi v rest

/-- `_merge_valued_ranges`: sort by `(lo, hi, value)`, then coalesce
overlapping or adjacent ranges carrying the same value. -/
def merge_valued_ranges (ranges : List (Nat × Nat × String)) : List (Nat × Nat × String) :=
  match List.insertionSort leKey3 ranges with
  | [] => []
  | (lo, hi, v) :: rest => mergeValuedGo lo hi v rest

/-- The walk of `_assert_disjoint_sorted`: raise (the offending `lo`) as soon
as `lo ≤ prev_hi`; `prev_hi` starts at the sentinel `-1`. -/
def adsGo (prevHi : Int) : List (Nat × Nat × String) → Except Nat Unit
  | [] => Except.ok ()
  | (lo, hi, _) :: rest =>
    if (lo : Int) ≤ prevHi then Except.error lo else adsGo (hi : Int) rest

/-- `_assert_disjoint_sorted`: defensively re-sort by `(lo, hi)` and walk
adjacent entries; `Except.error lo` models raising the overlap error at
`U+lo`. -/
def assert_disjoint_sorted (ranges : List (Nat × Nat × String)) : Except Nat Unit :=
  adsGo (-1) (List.insertionSort leKeyLoHi ranges)

/-- The uppercase hexadecimal digit characters used by Python `%X`
formatting. -/
def hexDigitChar (n : Nat) : Char :=
  if n < 10 then Char.ofNat (48 + n) else Char.ofNat (55 + n)

/-- Digit-production loop of hex formatting, fueled so that it is structural
and evaluates by kernel reduction; digits are prepended, most significant
first. -/
def toHexLoop : Nat → Nat → List Char → List Char
  | 0, _, acc => acc
  | fuel + 1, n, acc =>
    if n = 0 then acc else toHexLoop fuel (n / 16) (hexDigitChar (n % 16) :: acc)

/-- Python `f"\x7bx:X\x7d"`: minimal-width uppercase hexadecimal. -/
def toHexUpper (n : Nat) : String :=
  if n = 0 then ("0") else String.mk (toHexLoop (n + 1) n [])

/-- Python `f"\x7bx:04X\x7d"`: left-pad the hex digits with zeros to width 4. -/
def pad4 (s : String) : String :=
  String.mk (List.replicate (4 - s.length) '0' ++ s.data)

/-- `fmt_u32` from `_emit_inc`: values `≤ 0xFFFF` render as a 4-hex-digit
zero-padded literal, larger values at minimal width; both carry the `0x`
prefix and the unsigned suffix `u`. -/
def fmt_u32 (x : Nat) : String :=
  if x ≤ 0xFFFF then ("0x") ++ pad4 (toHexUpper x) ++ ("u")
  else ("0x") ++ toHexUpper x ++ ("u")

/-- Value of one hexadecimal digit; Python `int(_, 16)` accepts both cases. -/
def hexVal (c : Char) : Option Nat :=
  if c.isDigit then some (c.toNat - 48)
  else if 'A' ≤ c ∧ c ≤ 'F' then some (c.toNat - 55)
  else if 'a' ≤ c ∧ c ≤ 'f' then some (c.toNat - 87)
  else none

/-- Accumulating left-to-right hexadecimal parse. -/
def parseHexCore (acc : Nat) : List Char → Option Nat
  | [] => some acc
  | c :: rest =>
    match hexVal c with
    | some d => parseHexCore (16 * acc + d) rest
    | none => none

/-- Python `int(s, 16)` on the field strings reachable here: fails on the
empty string and on any non-hex-digit character (such as `.`). -/
def parseHexDigits : List Char → Option Nat
  | [] => none
  | c :: rest =>
    match hexVal c with
    | some d => parseHexCore d rest
    | none => none

/-- Characters of the regex class `[0-9A-Fa-f.]` (first group of
`_DATA_RE`). -/
def isHexDotChar (c : Char) : Bool :=
  c.isDigit || ('A' ≤ c && c ≤ 'F') || ('a' ≤ c && c ≤ 'f') || c = '.'

/-- Characters of the regex class `[A-Za-z_]` (second group of `_DATA_RE`). -/
def isWordAZChar (c : Char) : Bool :=
  ('A' ≤ c && c ≤ 'Z') || ('a' ≤ c && c ≤ 'z') || c = '_'

/-- `_DATA_RE.match`: the anchored pattern
`^([0-9A-Fa-f.]+)\s*;\s*([A-Za-z_]+)\b` as a deterministic scanner.  Greedy
classes need no backtracking here because `;`, whitespace and the two classes
are mutually disjoint; the trailing `\b` fails exactly when the character
after the second group is a digit (an ASCII reading of `\w`, which coincides
with the regex semantics on the ASCII repertoire of the UCD files). -/
def matchDataRe (s : String) : Option (String × String) :=
  let g1 := s.data.takeWhile isHexDotChar
  if g1.isEmpty then none
  else
    match (s.data.dropWhile isHexDotChar).dropWhile isPySpace with
    | ';' :: r3 =>
      let r4 := r3.dropWhile isPySpace
      let g2 := r4.takeWhile isWordAZChar
      if g2.isEmpty then none
      else
        match r4.dropWhile isWordAZChar with
        | [] => some (String.mk g1, String.mk g2)
        | c :: _ => if c.isDigit then none else some (String.mk g1, String.mk g2)
    | _ => none

/-- Python `field.split("..", 1)`: split at the first occurrence of `..`,
when there is one. -/
def splitDots : List Char → Option (List Char × List Char)
  | '.' :: '.' :: rest => some ([], rest)
  | c :: rest =>
    match splitDots rest with
    | some (a, b) => some (c :: a, b)
    | none => none
  | [] => none

/-- `_parse_codepoint_range`: strip, split on `..` if present, parse the hex
component(s); `none` models the uncaught `ValueError` of `int(_, 16)` on an
empty or non-hex component. -/
def parse_codepoint_range (field : String) : Option (Nat × Nat) :=
  match splitDots (pyStrip field).data with
  | some (a, b) =>
    match parseHexDigits a, parseHexDigits b with
    | some x, some y => some (x, y)
    | _, _ => none
  | none =>
    match parseHexDigits (pyStrip field).data with
    | some x => some (x, x)
    | none => none

/-- Fatal parse errors: `rangeErr` models the explicit
`ValueError(f"invalid codepoint range ... in ...")` carrying the raw field
and the source path; `formatErr` models the uncaught `ValueError` from
`int(_, 16)`. -/
inductive ParseErr where
  | rangeErr (field src : String)
  | formatErr (field : String)
deriving DecidableEq

/-- The filter `wanted is not None and prop not in wanted` of
`_parse_property_file`. -/
def wantedDrop (wanted : Option (List String)) (prop : String) : Bool :=
  match wanted with
  | none => false
  | some ws => ! (decide (prop ∈ ws))

/-- Range check and row construction of `_parse_property_file` after a
regex match that passes the wanted filter. -/
def parseLineRow (src cpField prop : String) : Except ParseErr (Option (Nat × Nat × String)) :=
  match parse_codepoint_range cpField with
  | none => Except.error (ParseErr.formatErr cpField)
  | some (lo, hi) =>
    if 0x10FFFF < hi ∨ hi < lo then Except.error (ParseErr.rangeErr cpField src)
    else Except.ok (some (lo, hi, prop))

/-- The per-line behaviour of `_parse_property_file`: strip, skip blanks and
comments, skip non-matching lines, drop filtered properties, then parse and
range-check the codepoint field. -/
def parseLine (src : String) (wanted : Option (List String)) (line : String) :
    Except ParseErr (Option (Nat × Nat × String)) :=
  if (pyStrip line).data.isEmpty then Except.ok none
  else if (pyStrip line).data.head? = some '#' then Except.ok none
  else
    match matchDataRe (pyStrip line) with
    | none => Except.ok none
    | some (cpField, prop) =>
      if wantedDrop wanted prop then Except.ok none
      else parseLineRow src cpField prop

/-- `_parse_property_file` over the list of lines: first error aborts,
otherwise the produced rows are collected in order. -/
def parse_property_file (src : String) (wanted : Option (List String)) :
    List String → Except ParseErr (List (Nat × Nat × String))
  | [] => Except.ok []
  | line :: rest =>
    match parseLine src wanted line with
    | Except.error e => Except.error e
    | Except.ok none => parse_property_file src wanted rest
    | Except.ok (some row) =>
      match parse_property_file src wanted rest with
      | Except.error e => Except.error e
      | Except.ok rows => Except.ok (row :: rows)

/-- The set of codepoints covered by a list of ranges. -/
def covers (l : List (Nat × Nat)) (c : Nat) : Prop :=
  ∃ p ∈ l, p.1 ≤ c ∧ c ≤ p.2

/-- The set of codepoints covered with value `v` by a list of valued rows. -/
def coversV (l : List (Nat × Nat × String)) (v : String) (c : Nat) : Prop :=
  ∃ r ∈ l, r.2.2 = v ∧ r.1 ≤ c ∧ c ≤ r.2.1

/-- Fatal error classes of a generator run: a parse error (RangeError /
FormatError), the validator's OverlapError with its call-site label, or the
emitter's UnmappedSymbolError. -/
inductive GenErr where
  | parse (e : ParseErr)
  | overlap (label : String) (lo : Nat)
  | unmapped (prop : String)

/-- The `gcb_map` dictionary of `_emit_inc`, as an association list. -/
def gcb_map : List (String × String) :=
  [("CR", "ZR_GCB_CR"), ("LF", "ZR_GCB_LF"), ("Control", "ZR_GCB_CONTROL"),
   ("Extend", "ZR_GCB_EXTEND"), ("ZWJ", "ZR_GCB_ZWJ"),
   ("Regional_Indicator", "ZR_GCB_REGIONAL_INDICATOR"), ("Prepend", "ZR_GCB_PREPEND"),
   ("SpacingMark", "ZR_GCB_SPACINGMARK"), ("L", "ZR_GCB_L"), ("V", "ZR_GCB_V"),
   ("T", "ZR_GCB_T"), ("LV", "ZR_GCB_LV"), ("LVT", "ZR_GCB_LVT")]

/-- The entry lines of `emit_ranges8`: each row's property is resolved
through `gcb_map`; an unresolved name aborts the whole table. -/
def emitRows8 : List (Nat × Nat × String) → Except GenErr (List String)
  | [] => Except.ok []
  | (lo, hi, prop) :: rest =>
    match List.lookup prop gcb_map with
    | none => Except.error (GenErr.unmapped prop)
    | some en =>
      match emitRows8 rest with
      | Except.error e => Except.error e
      | Except.ok ls =>
        Except.ok ((("  \x7b") ++ fmt_u32 lo ++ (", ") ++ fmt_u32 hi ++ (", (uint8_t)") ++ en
          ++ (", \x7b0u, 0u, 0u\x7d\x7d,")) :: ls)

/-- `emit_ranges8`: header line, entry lines, closing line, joined by
newlines. -/
def emit_ranges8 (name : String) (rows : List (Nat × Nat × String)) : Except GenErr String :=
  match emitRows8 rows with
  | Except.error e => Except.error e
  | Except.ok ls =>
    Except.ok (String.intercalate ("\n")
      (((("static const zr_unicode_range8_t ") ++ name ++ ("[] = \x7b")) :: ls) ++ [("\x7d;")]))

/-- The entry lines of `emit_ranges` (unvalued tables never fail). -/
def emitRows (rows : List (Nat × Nat)) : List String :=
  rows.map (fun p => ("  \x7b") ++ fmt_u32 p.1 ++ (", ") ++ fmt_u32 p.2 ++ ("\x7d,"))

/-- `emit_ranges`: header line, entry lines, closing line. -/
def emit_ranges (name : String) (rows : List (Nat × Nat)) : String :=
  String.intercalate ("\n")
    (((("static const zr_unicode_range_t ") ++ name ++ ("[] = \x7b")) :: emitRows rows)
      ++ [("\x7d;")])

/-- The dedented header comment written at the top of the artifact. -/
def incHeader : String :=
  ("/*\n  src/unicode/zr_unicode_data_tables_15_1_0.inc — Generated Unicode 15.1.0 tables.\n\n  Why: Provides immutable, deterministic property ranges for grapheme iteration and width.\n\n  Generated by: scripts/unicode/gen_unicode_tables.py\n*/\n")

/-- `_emit_inc` up to the single final write: the full artifact text is
materialized in memory; the GCB table is formatted first and any unmapped
property aborts before anything is produced. -/
def emit_inc (gcb : List (Nat × Nat × String)) (ep emojiPres eawWide : List (Nat × Nat)) :
    Except GenErr String :=
  match emit_ranges8 ("kGcbRanges") gcb with
  | Except.error e => Except.error e
  | Except.ok s8 =>
    Except.ok (incHeader ++ ("\n") ++
      String.intercalate ("\n\n")
        [s8, emit_ranges ("kExtendedPictographicRanges") ep,
         emit_ranges ("kEmojiPresentationRanges") emojiPres,
         emit_ranges ("kEawWideRanges") eawWide] ++ ("\n"))

/-- The `gcb_props` wanted set of `main` (only membership is used). -/
def gcb_props : List String :=
  [("CR"), ("LF"), ("Control"), ("Extend"), ("ZWJ"), ("Regional_Indicator"), ("Prepend"),
   ("SpacingMark"), ("L"), ("V"), ("T"), ("LV"), ("LVT")]

/-- The pure core of `main`: parse the three resources, merge, validate the
GCB table, and materialize the artifact text; the first error aborts. -/
def pipelineText (gcbLines emojiLines eawLines : List String) : Except GenErr String :=
  match parse_property_file ("GraphemeBreakProperty.txt") (some gcb_props) gcbLines with
  | Except.error e => Except.error (GenErr.parse e)
  | Except.ok gcbRows =>
    match assert_disjoint_sorted (merge_valued_ranges gcbRows) with
    | Except.error lo => Except.error (GenErr.overlap ("GCB") lo)
    | Except.ok _ =>
      match parse_property_file ("emoji-data.txt")
          (some [("Extended_Pictographic"), ("Emoji_Presentation")]) emojiLines with
      | Except.error e => Except.error (GenErr.parse e)
      | Except.ok emojiRows =>
        match parse_property_file ("EastAsianWidth.txt") (some [("W"), ("F")]) eawLines with
        | Except.error e => Except.error (GenErr.parse e)
        | Except.ok eawRows =>
          emit_inc (merge_valued_ranges gcbRows)
            (merge_ranges ((emojiRows.filter
              (fun r => r.2.2 == ("Extended_Pictographic"))).map (fun r => (r.1, r.2.1))))
            (merge_ranges ((emojiRows.filter
              (fun r => r.2.2 == ("Emoji_Presentation"))).map (fun r => (r.1, r.2.1))))
            (merge_ranges (eawRows.map (fun r => (r.1, r.2.1))))

/-- A run's observable write trace: `out_path.write_text` is the single
write, performed only after the whole text is materialized; on any error
nothing has been written. -/
def runPipeline (g e w : List String) : List String × Option GenErr :=
  match pipelineText g e w with
  | Except.ok s => ([s], none)
  | Except.error err => ([], some err)

/-- The executable string comparison agrees with the lexicographic order on
code-point lists. -/
theorem strLtB_iff_lex :
    ∀ l₁ l₂ : List Char, strLtB l₁ l₂ = true ↔ List.Lex (· < ·) l₁ l₂ := by
  intro l₁
  induction l₁ with
  | nil =>
    intro l₂
    cases l₂ with
    | nil =>
      simp only [strLtB, Bool.false_eq_true, false_iff]
      intro h
      cases h
    | cons b bs => simp only [strLtB, true_iff]; exact List.Lex.nil
  | cons a as ih =>
    intro l₂
    cases l₂ with
    | nil =>
      simp only [strLtB, Bool.false_eq_true, false_iff]
      intro h
      cases h
    | cons b bs =>
      simp only [strLtB]
      constructor
      · intro h
        split_ifs at h with h1 h2
        · exact List.Lex.rel h1
        · have hab : a = b := le_antisymm (not_lt.mp h2) (not_lt.mp h1)
          subst hab
          exact List.Lex.cons ((ih bs).mp h)
      · intro h
        cases h with
        | cons h' =>
          simp only [lt_irrefl, if_false]
          exact (ih bs).mpr h'
        | rel h' => simp [h']

/-- `String.data` is injective. -/
theorem str_data_inj : ∀ {a b : String}, a.data = b.data → a = b := by
  intro a b h
  cases a
  cases b
  exact congrArg String.mk h

theorem strLe_total (a b : String) : strLe a b ∨ strLe b a := by
  rcases trichotomous_of (List.Lex ((· < ·) : Char → Char → Prop)) a.data b.data with h | h | h
  · exact Or.inl (Or.inl ((strLtB_iff_lex _ _).mpr h))
  · exact Or.inl (Or.inr (str_data_inj h))
  · exact Or.inr (Or.inl ((strLtB_iff_lex _ _).mpr h))

theorem strLe_trans {a b c : String} (h₁ : strLe a b) (h₂ : strLe b c) : strLe a c := by
  rcases h₁ with h₁ | rfl
  · rcases h₂ with h₂ | rfl
    · exact Or.inl ((strLtB_iff_lex _ _).mpr
        (trans_of (List.Lex ((· < ·) : Char → Char → Prop)) ((strLtB_iff_lex _ _).mp h₁) ((strLtB_iff_lex _ _).mp h₂)))
    · exact Or.inl h₁
  · exact h₂

theorem strLe_antisymm {a b : String} (h₁ : strLe a b) (h₂ : strLe b a) : a = b := by
  rcases h₁ with h₁ | rfl
  · rcases h₂ with h₂ | rfl
    · exact absurd ((strLtB_iff_lex _ _).mp h₂)
        (asymm_of (List.Lex ((· < ·) : Char → Char → Prop)) ((strLtB_iff_lex _ _).mp h₁))
    · rfl
  · rfl

instance totalLeKey2 : IsTotal (Nat × Nat) leKey2 :=
  ⟨fun a b => by simp only [leKey2]; omega⟩

instance transLeKey2 : IsTrans (Nat × Nat) leKey2 :=
  ⟨fun a b c h₁ h₂ => by simp only [leKey2] at h₁ h₂ ⊢; omega⟩

instance antisymmLeKey2 : IsAntisymm (Nat × Nat) leKey2 :=
  ⟨fun a b h₁ h₂ => by
    simp only [leKey2] at h₁ h₂
    have e1 : a.1 = b.1 := by omega
    have e2 : a.2 = b.2 := by omega
    exact Prod.ext e1 e2⟩

instance totalLeKey3 : IsTotal (Nat × Nat × String) leKey3 := by
  refine ⟨fun a b => ?_⟩
  rcases Nat.lt_trichotomy a.1 b.1 with h | h | h
  · exact Or.inl (Or.inl h)
  · rcases Nat.lt_trichotomy a.2.1 b.2.1 with h2 | h2 | h2
    · exact Or.inl (Or.inr ⟨h, Or.inl h2⟩)
    · rcases strLe_total a.2.2 b.2.2 with h3 | h3
      · exact Or.inl (Or.inr ⟨h, Or.inr ⟨h2, h3⟩⟩)
      · exact Or.inr (Or.inr ⟨h.symm, Or.inr ⟨h2.symm, h3⟩⟩)
    · exact Or.inr (Or.inr ⟨h.symm, Or.inl h2⟩)
  · exact Or.inr (Or.inl h)

instance transLeKey3 : IsTrans (Nat × Nat × String) leKey3 := by
  refine ⟨fun a b c h₁ h₂ => ?_⟩
  rcases h₁ with h₁ | ⟨e1, h₁'⟩
  · rcases h₂ with h₂ | ⟨e2, _⟩
    · exact Or.inl (lt_trans h₁ h₂)
    · exact Or.inl (e2 ▸ h₁)
  · rcases h₂ with h₂ | ⟨e2, h₂'⟩
    · exact Or.inl (e1 ▸ h₂)
    · refine Or.inr ⟨e1.trans e2, ?_⟩
      rcases h₁' with g1 | ⟨f1, s1⟩
      · rcases h₂' with g2 | ⟨f2, _⟩
        · exact Or.inl (lt_trans g1 g2)
        · exact Or.inl (f2 ▸ g1)
      · rcases h₂' with g2 | ⟨f2, s2⟩
        · exact Or.inl (f1 ▸ g2)
        · exact Or.inr ⟨f1.trans f2, strLe_trans s1 s2⟩

instance antisymmLeKey3 : IsAntisymm (Nat × Nat × String) leKey3 := by
  refine ⟨fun a b h₁ h₂ => ?_⟩
  rcases h₁ with h₁ | ⟨e1, h₁'⟩
  · rcases h₂ with h₂ | ⟨e2, _⟩
    · exact absurd h₂ (lt_asymm h₁)
    · exact absurd h₁ (e2 ▸ lt_irrefl a.1)
  · rcases h₂ with h₂ | ⟨e2, h₂'⟩
    · exact absurd h₂ (e1 ▸ lt_irrefl b.1)
    · rcases h₁' with g1 | ⟨f1, s1⟩
      · rcases h₂' with g2 | ⟨f2, _⟩
        · exact absurd g2 (lt_asymm g1)
        · exact absurd g1 (f2 ▸ lt_irrefl a.2.1)
      · rcases h₂' with g2 | ⟨f2, s2⟩
        · exact absurd g2 (f1 ▸ lt_irrefl b.2.1)
        · exact Prod.ext e1 (Prod.ext f1 (strLe_antisymm s1 s2))

instance totalLeKeyLoHi : IsTotal (Nat × Nat × String) leKeyLoHi :=
  ⟨fun a b => by simp only [leKeyLoHi]; omega⟩

instance transLeKeyLoHi : IsTrans (Nat × Nat × String) leKeyLoHi :=
  ⟨fun a b c h₁ h₂ => by simp only [leKeyLoHi] at h₁ h₂ ⊢; omega⟩

/-- The merge loop's output starts at `curLo` with a final upper bound at
least `curHi`. -/
theorem mergeRangesGo_head : ∀ (l : List (Nat × Nat)) (curLo curHi : Nat),
    ∃ h t, mergeRangesGo curLo curHi l = (curLo, h) :: t ∧ curHi ≤ h := by
  intro l
  induction l with
  | nil => exact fun curLo curHi => ⟨curHi, [], rfl, le_refl _⟩
  | cons p rest ih =>
    intro curLo curHi
    obtain ⟨lo, hi⟩ := p
    by_cases h : lo ≤ curHi + 1
    · obtain ⟨h', t', he, hle⟩ := ih curLo (max curHi hi)
      exact ⟨h', t', by simp only [mergeRangesGo, if_pos h]; exact he,
        le_trans (Nat.le_max_left _ _) hle⟩
    · exact ⟨curHi, mergeRangesGo lo hi rest, by simp only [mergeRangesGo, if_neg h], le_refl _⟩

/-- The invariant `leKey2 (curLo, curHi) · ` over the remaining rows is
preserved when the open interval is extended. -/
theorem invStep2 {curLo curHi lo hi : Nat} {rest : List (Nat × Nat)}
    (hs1 : ∀ p ∈ rest, leKey2 (lo, hi) p)
    (hc1 : leKey2 (curLo, curHi) (lo, hi))
    (hc2 : ∀ p ∈ rest, leKey2 (curLo, curHi) p) :
    ∀ p ∈ rest, leKey2 (curLo, max curHi hi) p := by
  intro p hp
  have A := hc2 p hp
  have B := hs1 p hp
  simp only [leKey2] at A B hc1 ⊢
  omega

/-- On a sorted tail dominated by the open interval, the merge loop emits a
list sorted by the `(lo, hi)` key whose consecutive entries are separated by
a gap of at least one codepoint. -/
theorem mergeRangesGo_sorted_chain : ∀ (l : List (Nat × Nat)) (curLo curHi : Nat),
    List.Sorted leKey2 l → (∀ p ∈ l, leKey2 (curLo, curHi) p) →
    List.Sorted leKey2 (mergeRangesGo curLo curHi l) ∧
    List.Chain' (fun a b => a.2 + 1 < b.1) (mergeRangesGo curLo curHi l) := by
  intro l
  induction l with
  | nil =>
    intro curLo curHi _ _
    constructor
    · simp [mergeRangesGo]
    · simp [mergeRangesGo]
  | cons p rest ih =>
    obtain ⟨lo, hi⟩ := p
    intro curLo curHi hs hc
    rw [List.sorted_cons] at hs
    obtain ⟨hs1, hs2⟩ := hs
    have hc1 : leKey2 (curLo, curHi) (lo, hi) := hc _ (List.mem_cons_self _ _)
    have hc2 : ∀ p ∈ rest, leKey2 (curLo, curHi) p :=
      fun p hp => hc _ (List.mem_cons_of_mem _ hp)
    by_cases h : lo ≤ curHi + 1
    · have hinv := invStep2 hs1 hc1 hc2
      have IH := ih curLo (max curHi hi) hs2 hinv
      simpa only [mergeRangesGo, if_pos h] using IH
    · obtain ⟨hS, hC⟩ := ih lo hi hs2 hs1
      obtain ⟨h', t', he, hh⟩ := mergeRangesGo_head rest lo hi
      simp only [mergeRangesGo, if_neg h]
      constructor
      · rw [List.sorted_cons]
        refine ⟨?_, hS⟩
        intro q hq
        rw [he] at hq hS
        rw [List.sorted_cons] at hS
        rcases List.mem_cons.mp hq with rfl | hq'
        · simp only [leKey2] at hc1 ⊢
          omega
        · have h1 : leKey2 (lo, h') q := hS.1 q hq'
          have h2 : leKey2 (curLo, curHi) (lo, h') := by
            simp only [leKey2] at hc1 ⊢
            omega
          exact trans_of leKey2 h2 h1
      · rw [he]
        rw [he] at hC
        exact List.chain'_cons.mpr ⟨by omega, hC⟩

/-- Unfolding `covers` over a cons cell. -/
theorem covers_cons {a b : Nat} {l : List (Nat × Nat)} {c : Nat} :
    covers ((a, b) :: l) c ↔ (a ≤ c ∧ c ≤ b) ∨ covers l c := by
  constructor
  · rintro ⟨p, hp, hc⟩
    rcases List.mem_cons.mp hp with rfl | hp'
    · exact Or.inl hc
    · exact Or.inr ⟨p, hp', hc⟩
  · rintro (hc | ⟨p, hp, hc⟩)
    · exact ⟨(a, b), List.mem_cons_self _ _, hc⟩
    · exact ⟨p, List.mem_cons_of_mem _ hp, hc⟩

/-- `covers` is invariant under permutation. -/
theorem covers_perm {l₁ l₂ : List (Nat × Nat)} (h : l₁.Perm l₂) (c : Nat) :
    covers l₁ c ↔ covers l₂ c := by
  constructor
  · rintro ⟨p, hp, hc⟩
    exact ⟨p, h.subset hp, hc⟩
  · rintro ⟨p, hp, hc⟩
    exact ⟨p, h.symm.subset hp, hc⟩

/-- The merge loop preserves the union of covered codepoints. -/
theorem mergeRangesGo_covers : ∀ (l : List (Nat × Nat)) (curLo curHi : Nat),
    List.Sorted leKey2 l → (∀ p ∈ l, leKey2 (curLo, curHi) p) →
    ∀ c, covers (mergeRangesGo curLo curHi l) c ↔
      ((curLo ≤ c ∧ c ≤ curHi) ∨ covers l c) := by
  intro l
  induction l with
  | nil =>
    intro curLo curHi _ _ c
    simp [mergeRangesGo, covers]
  | cons p rest ih =>
    obtain ⟨lo, hi⟩ := p
    intro curLo curHi hs hc c
    rw [List.sorted_cons] at hs
    obtain ⟨hs1, hs2⟩ := hs
    have hc1 : leKey2 (curLo, curHi) (lo, hi) := hc _ (List.mem_cons_self _ _)
    have hc2 : ∀ p ∈ rest, leKey2 (curLo, curHi) p :=
      fun p hp => hc _ (List.mem_cons_of_mem _ hp)
    by_cases h : lo ≤ curHi + 1
    · have hinv := invStep2 hs1 hc1 hc2
      have IH := ih curLo (max curHi hi) hs2 hinv c
      simp only [mergeRangesGo, if_pos h]
      rw [IH, covers_cons]
      simp only [leKey2] at hc1
      have harith : (curLo ≤ c ∧ c ≤ max curHi hi) ↔
          ((curLo ≤ c ∧ c ≤ curHi) ∨ (lo ≤ c ∧ c ≤ hi)) := by omega
      rw [harith, or_assoc]
    · simp only [mergeRangesGo, if_neg h]
      rw [covers_cons, ih lo hi hs2 hs1 c, covers_cons]

/-- The merge loop emits only valid `(lo, hi)` pairs. -/
theorem mergeRangesGo_valid : ∀ (l : List (Nat × Nat)) (curLo curHi : Nat),
    (∀ p ∈ l, p.1 ≤ p.2) → curLo ≤ curHi →
    ∀ q ∈ mergeRangesGo curLo curHi l, q.1 ≤ q.2 := by
  intro l
  induction l with
  | nil =>
    intro curLo curHi _ hcur q hq
    simp only [mergeRangesGo, List.mem_singleton] at hq
    subst hq
    exact hcur
  | cons p rest ih =>
    obtain ⟨lo, hi⟩ := p
    intro curLo curHi hv hcur q hq
    have hv1 : lo ≤ hi := hv _ (List.mem_cons_self _ _)
    have hv2 : ∀ p ∈ rest, p.1 ≤ p.2 := fun p hp => hv _ (List.mem_cons_of_mem _ hp)
    by_cases h : lo ≤ curHi + 1
    · simp only [mergeRangesGo, if_pos h] at hq
      exact ih curLo (max curHi hi) hv2 (le_trans hcur (Nat.le_max_left _ _)) q hq
    · simp only [mergeRangesGo, if_neg h] at hq
      rcases List.mem_cons.mp hq with rfl | hq'
      · exact hcur
      · exact ih lo hi hv2 hv1 q hq'

/-- A gap chain over valid ranges yields the full pairwise separation. -/
theorem chain_gap_pairwise : ∀ {l : List (Nat × Nat)},
    List.Chain' (fun a b => a.2 + 1 < b.1) l → (∀ q ∈ l, q.1 ≤ q.2) →
    List.Pairwise (fun a b => a.1 < b.1 ∧ a.2 < b.1) l := by
  intro l
  induction l with
  | nil => exact fun _ _ => List.Pairwise.nil
  | cons a t ih =>
    intro hch hv
    have hpt := ih hch.tail (fun q hq => hv q (List.mem_cons_of_mem _ hq))
    refine List.pairwise_cons.mpr ⟨?_, hpt⟩
    intro x hx
    cases t with
    | nil => cases hx
    | cons b t' =>
      have hab : a.2 + 1 < b.1 := (List.chain'_cons.mp hch).1
      have hbv : b.1 ≤ b.2 := hv b (by simp)
      have hav : a.1 ≤ a.2 := hv a (by simp)
      rcases List.mem_cons.mp hx with rfl | hx'
      · omega
      · have hbx := (List.pairwise_cons.mp hpt).1 x hx'
        omega

/-- C1: for every list of valid input ranges, the unvalued merge returns a
list strictly sorted by `lo`, pairwise non-overlapping, covering exactly the
union of the inputs. -/
theorem merge_ranges_correct (rs : List (Nat × Nat)) (hv : ∀ p ∈ rs, p.1 ≤ p.2) :
    List.Pairwise (fun a b => a.1 < b.1) (merge_ranges rs) ∧
    List.Pairwise (fun a b => a.2 < b.1) (merge_ranges rs) ∧
    (∀ c, covers (merge_ranges rs) c ↔ covers rs c) := by
  have hperm := List.perm_insertionSort leKey2 rs
  have hsorted := List.sorted_insertionSort leKey2 rs
  cases hE : List.insertionSort leKey2 rs with
  | nil =>
    rw [hE] at hperm
    have hnil : rs = [] := hperm.symm.eq_nil
    subst hnil
    have hm : merge_ranges [] = [] := rfl
    rw [hm]
    exact ⟨List.Pairwise.nil, List.Pairwise.nil, fun _ => Iff.rfl⟩
  | cons hd tl =>
    obtain ⟨lo, hi⟩ := hd
    have hm : merge_ranges rs = mergeRangesGo lo hi tl := by
      unfold merge_ranges
      rw [hE]
    rw [hE] at hsorted hperm
    rw [List.sorted_cons] at hsorted
    obtain ⟨hhd, htl⟩ := hsorted
    have hvs : ∀ p ∈ (lo, hi) :: tl, p.1 ≤ p.2 := fun p hp => hv p (hperm.subset hp)
    obtain ⟨hS, hC⟩ := mergeRangesGo_sorted_chain tl lo hi htl hhd
    have hval : ∀ q ∈ mergeRangesGo lo hi tl, q.1 ≤ q.2 :=
      mergeRangesGo_valid tl lo hi (fun p hp => hvs p (List.mem_cons_of_mem _ hp))
        (hvs (lo, hi) (List.mem_cons_self _ _))
    have hpair := chain_gap_pairwise hC hval
    rw [hm]
    refine ⟨hpair.imp (fun h => h.1), hpair.imp (fun h => h.2), ?_⟩
    intro c
    rw [mergeRangesGo_covers tl lo hi htl hhd c, ← covers_cons]
    exact covers_perm hperm c

/-- Witness for C1 at the spec's adjacency scenario
`[(0x300, 0x36F), (0x370, 0x374)]`. -/
theorem merge_ranges_correct_witness :
    (∀ p ∈ [((0x300 : Nat), (0x36F : Nat)), (0x370, 0x374)], p.1 ≤ p.2) ∧
    (List.Pairwise (fun a b => a.1 < b.1) (merge_ranges [(0x300, 0x36F), (0x370, 0x374)]) ∧
     List.Pairwise (fun a b => a.2 < b.1) (merge_ranges [(0x300, 0x36F), (0x370, 0x374)]) ∧
     (∀ c, covers (merge_ranges [(0x300, 0x36F), (0x370, 0x374)]) c ↔
        covers [(0x300, 0x36F), (0x370, 0x374)] c)) :=
  ⟨by decide, merge_ranges_correct [(0x300, 0x36F), (0x370, 0x374)] (by decide)⟩

/-- The valued merge loop's output starts at `curLo` with value `curV` and a
final upper bound at least `curHi`. -/
theorem mergeValuedGo_head : ∀ (l : List (Nat × Nat × String)) (curLo curHi : Nat) (curV : String),
    ∃ h t, mergeValuedGo curLo curHi curV l = (curLo, h, curV) :: t ∧ curHi ≤ h := by
  intro l
  induction l with
  | nil => exact fun curLo curHi curV => ⟨curHi, [], rfl, le_refl _⟩
  | cons p rest ih =>
    intro curLo curHi curV
    obtain ⟨lo, hi, v⟩ := p
    by_cases h : v = curV ∧ lo ≤ curHi + 1
    · obtain ⟨h', t', he, hle⟩ := ih curLo (max curHi hi) curV
      exact ⟨h', t', by simp only [mergeValuedGo, if_pos h]; exact he,
        le_trans (Nat.le_max_left _ _) hle⟩
    · exact ⟨curHi, mergeValuedGo lo hi v rest,
        by simp only [mergeValuedGo, if_neg h], le_refl _⟩

/-- The invariant `leKey3 (curLo, curHi, curV) ·` over the remaining rows is
preserved when the open interval is extended (which requires the value of the
absorbed row to equal `curV`). -/
theorem invStep3 {curLo curHi lo hi : Nat} {curV v : String} {rest : List (Nat × Nat × String)}
    (hveq : v = curV)
    (hs1 : ∀ p ∈ rest, leKey3 (lo, hi, v) p)
    (hc1 : leKey3 (curLo, curHi, curV) (lo, hi, v))
    (hc2 : ∀ p ∈ rest, leKey3 (curLo, curHi, curV) p) :
    ∀ p ∈ rest, leKey3 (curLo, max curHi hi, curV) p := by
  subst hveq
  intro p hp
  have A := hc2 p hp
  have B := hs1 p hp
  simp only [leKey3] at A B hc1 ⊢
  rcases A with A | ⟨e1, A'⟩
  · exact Or.inl A
  · right
    refine ⟨e1, ?_⟩
    have hlo1 : curLo ≤ lo := by
      rcases hc1 with h | ⟨e, _⟩
      · exact le_of_lt h
      · exact le_of_eq e
    have hlo2 : lo ≤ p.1 := by
      rcases B with h | ⟨e, _⟩
      · exact le_of_lt h
      · exact le_of_eq e
    rcases B with B | ⟨e2, B'⟩
    · exact absurd B (by omega)
    · rcases A' with A' | ⟨e3, s3⟩
      · rcases B' with B' | ⟨e4, s4⟩
        · exact Or.inl (by omega)
        · exact Or.inr ⟨by omega, s4⟩
      · rcases B' with B' | ⟨e4, s4⟩
        · exact Or.inr ⟨by omega, s3⟩
        · exact Or.inr ⟨by omega, s3⟩

/-- On a sorted tail dominated by the open interval, the valued merge loop
emits a list sorted by the `(lo, hi, value)` key whose consecutive entries
either carry different values or are separated by a codepoint gap. -/
theorem mergeValuedGo_sorted_chain :
    ∀ (l : List (Nat × Nat × String)) (curLo curHi : Nat) (curV : String),
    List.Sorted leKey3 l → (∀ p ∈ l, leKey3 (curLo, curHi, curV) p) →
    List.Sorted leKey3 (mergeValuedGo curLo curHi curV l) ∧
    List.Chain' (fun a b => a.2.2 ≠ b.2.2 ∨ a.2.1 + 1 < b.1)
      (mergeValuedGo curLo curHi curV l) := by
  intro l
  induction l with
  | nil =>
    intro curLo curHi curV _ _
    constructor
    · simp [mergeValuedGo]
    · simp [mergeValuedGo]
  | cons p rest ih =>
    obtain ⟨lo, hi, v⟩ := p
    intro curLo curHi curV hs hc
    rw [List.sorted_cons] at hs
    obtain ⟨hs1, hs2⟩ := hs
    have hc1 : leKey3 (curLo, curHi, curV) (lo, hi, v) := hc _ (List.mem_cons_self _ _)
    have hc2 : ∀ p ∈ rest, leKey3 (curLo, curHi, curV) p :=
      fun p hp => hc _ (List.mem_cons_of_mem _ hp)
    by_cases h : v = curV ∧ lo ≤ curHi + 1
    · have hinv := invStep3 h.1 hs1 hc1 hc2
      have IH := ih curLo (max curHi hi) curV hs2 hinv
      simpa only [mergeValuedGo, if_pos h] using IH
    · obtain ⟨hS, hC⟩ := ih lo hi v hs2 hs1
      obtain ⟨h', t', he, hh⟩ := mergeValuedGo_head rest lo hi v
      simp only [mergeValuedGo, if_neg h]
      have hkey : leKey3 (curLo, curHi, curV) (lo, h', v) := by
        simp only [leKey3] at hc1 ⊢
        rcases hc1 with h1 | ⟨e, inner⟩
        · exact Or.inl h1
        · refine Or.inr ⟨e, ?_⟩
          rcases inner with h2 | ⟨e2, s⟩
          · exact Or.inl (by omega)
          · rcases Nat.lt_or_ge curHi h' with h3 | h3
            · exact Or.inl h3
            · exact Or.inr ⟨by omega, s⟩
      constructor
      · rw [List.sorted_cons]
        refine ⟨?_, hS⟩
        intro q hq
        rw [he] at hq hS
        rw [List.sorted_cons] at hS
        rcases List.mem_cons.mp hq with rfl | hq'
        · exact hkey
        · exact trans_of leKey3 hkey (hS.1 q hq')
      · rw [he]
        rw [he] at hC
        refine List.chain'_cons.mpr ⟨?_, hC⟩
        dsimp only
        by_cases hv : v = curV
        · have hlo : ¬ lo ≤ curHi + 1 := fun hle => h ⟨hv, hle⟩
          exact Or.inr (by omega)
        · exact Or.inl (fun e => hv e.symm)

/-- Unfolding `coversV` over a cons cell. -/
theorem coversV_cons {a b : Nat} {u : String} {l : List (Nat × Nat × String)}
    {w : String} {c : Nat} :
    coversV ((a, b, u) :: l) w c ↔ (u = w ∧ a ≤ c ∧ c ≤ b) ∨ coversV l w c := by
  constructor
  · rintro ⟨r, hr, hv, hc⟩
    rcases List.mem_cons.mp hr with rfl | hr'
    · exact Or.inl ⟨hv, hc⟩
    · exact Or.inr ⟨r, hr', hv, hc⟩
  · rintro (⟨hv, hc⟩ | ⟨r, hr, hv, hc⟩)
    · exact ⟨(a, b, u), List.mem_cons_self _ _, hv, hc⟩
    · exact ⟨r, List.mem_cons_of_mem _ hr, hv, hc⟩

/-- `coversV` is invariant under permutation. -/
theorem coversV_perm {l₁ l₂ : List (Nat × Nat × String)} (h : l₁.Perm l₂)
    (w : String) (c : Nat) : coversV l₁ w c ↔ coversV l₂ w c := by
  constructor
  · rintro ⟨r, hr, hv, hc⟩
    exact ⟨r, h.subset hr, hv, hc⟩
  · rintro ⟨r, hr, hv, hc⟩
    exact ⟨r, h.symm.subset hr, hv, hc⟩

/-- The valued merge loop preserves, for every value, the covered set of
codepoints carrying that value. -/
theorem mergeValuedGo_covers :
    ∀ (l : List (Nat × Nat × String)) (curLo curHi : Nat) (curV : String),
    List.Sorted leKey3 l → (∀ p ∈ l, leKey3 (curLo, curHi, curV) p) →
    ∀ (w : String) (c : Nat),
      coversV (mergeValuedGo curLo curHi curV l) w c ↔
        ((curV = w ∧ curLo ≤ c ∧ c ≤ curHi) ∨ coversV l w c) := by
  intro l
  induction l with
  | nil =>
    intro curLo curHi curV _ _ w c
    simp only [mergeValuedGo]
    rw [coversV_cons]
  | cons p rest ih =>
    obtain ⟨lo, hi, v⟩ := p
    intro curLo curHi curV hs hc w c
    rw [List.sorted_cons] at hs
    obtain ⟨hs1, hs2⟩ := hs
    have hc1 : leKey3 (curLo, curHi, curV) (lo, hi, v) := hc _ (List.mem_cons_self _ _)
    have hc2 : ∀ p ∈ rest, leKey3 (curLo, curHi, curV) p :=
      fun p hp => hc _ (List.mem_cons_of_mem _ hp)
    by_cases h : v = curV ∧ lo ≤ curHi + 1
    · have hinv := invStep3 h.1 hs1 hc1 hc2
      have IH := ih curLo (max curHi hi) curV hs2 hinv w c
      simp only [mergeValuedGo, if_pos h]
      rw [IH, coversV_cons]
      have hlo1 : curLo ≤ lo := by
        rcases hc1 with h1 | ⟨e, _⟩
        · exact le_of_lt h1
        · exact le_of_eq e
      have harith : (curLo ≤ c ∧ c ≤ max curHi hi) ↔
          ((curLo ≤ c ∧ c ≤ curHi) ∨ (lo ≤ c ∧ c ≤ hi)) := by omega
      obtain ⟨hv, _⟩ := h
      subst hv
      tauto
    · simp only [mergeValuedGo, if_neg h]
      rw [coversV_cons, ih lo hi v hs2 hs1 w c, coversV_cons]

/-- The valued merge preserves, for every value, the exact covered set. -/
theorem merge_valued_covers_iff (rs : List (Nat × Nat × String)) (w : String) (c : Nat) :
    coversV (merge_valued_ranges rs) w c ↔ coversV rs w c := by
  have hperm := List.perm_insertionSort leKey3 rs
  have hsorted := List.sorted_insertionSort leKey3 rs
  cases hE : List.insertionSort leKey3 rs with
  | nil =>
    rw [hE] at hperm
    have hm : merge_valued_ranges rs = [] := by
      unfold merge_valued_ranges
      rw [hE]
    rw [hm]
    exact coversV_perm hperm w c
  | cons hd tl =>
    obtain ⟨lo, hi, v⟩ := hd
    have hm : merge_valued_ranges rs = mergeValuedGo lo hi v tl := by
      unfold merge_valued_ranges
      rw [hE]
    rw [hE] at hsorted hperm
    rw [List.sorted_cons] at hsorted
    rw [hm, mergeValuedGo_covers tl lo hi v hsorted.2 hsorted.1 w c, ← coversV_cons]
    exact coversV_perm hperm w c

/-- C10: for every value `v`, the codepoints the valued-merge output covers
with value `v` are exactly the codepoints the input rows cover with value
`v`: no codepoint is dropped or re-labelled. -/
theorem merge_valued_ranges_covers_exact (rs : List (Nat × Nat × String))
    (v : String) (c : Nat) :
    coversV (merge_valued_ranges rs) v c ↔ coversV rs v c :=
  merge_valued_covers_iff rs v c

/-- C2: every output range of the valued merge covers only codepoints that
some input row covers with that same value (a value change always closes the
current interval), and the spec's scenario merges as stated. -/
theorem merge_valued_ranges_value_respecting :
    (∀ (rs : List (Nat × Nat × String)), ∀ r ∈ merge_valued_ranges rs, ∀ c : Nat,
      r.1 ≤ c → c ≤ r.2.1 → coversV rs r.2.2 c) ∧
    merge_valued_ranges [(0x41, 0x41, "X"), (0x42, 0x45, "X"), (0x50, 0x50, "Y")] =
      [(0x41, 0x45, "X"), (0x50, 0x50, "Y")] := by
  constructor
  · intro rs r hr c h1 h2
    exact (merge_valued_covers_iff rs r.2.2 c).mp ⟨r, hr, rfl, h1, h2⟩
  · decide

/-- Witness for C2: the merged range `(0x41, 0x45, "X")` covers `0x43`, which
is indeed covered with value `"X"` by the input rows. -/
theorem merge_valued_ranges_value_respecting_witness :
    ((0x41, 0x45, "X") ∈
      merge_valued_ranges [(0x41, 0x41, "X"), (0x42, 0x45, "X"), (0x50, 0x50, "Y")]) ∧
    coversV [(0x41, 0x41, "X"), (0x42, 0x45, "X"), (0x50, 0x50, "Y")] ("X") 0x43 :=
  ⟨by decide,
    merge_valued_ranges_value_respecting.1
      [(0x41, 0x41, "X"), (0x42, 0x45, "X"), (0x50, 0x50, "Y")]
      (0x41, 0x45, "X") (by decide) 0x43 (by decide) (by decide)⟩

/-- The unvalued merge output is sorted by the `(lo, hi)` key and its
consecutive entries are separated by a gap. -/
theorem merge_ranges_sorted_chain (rs : List (Nat × Nat)) :
    List.Sorted leKey2 (merge_ranges rs) ∧
    List.Chain' (fun a b => a.2 + 1 < b.1) (merge_ranges rs) := by
  cases hE : List.insertionSort leKey2 rs with
  | nil =>
    have hm : merge_ranges rs = [] := by
      unfold merge_ranges
      rw [hE]
    rw [hm]
    exact ⟨List.sorted_nil, List.chain'_nil⟩
  | cons hd tl =>
    obtain ⟨lo, hi⟩ := hd
    have hm : merge_ranges rs = mergeRangesGo lo hi tl := by
      unfold merge_ranges
      rw [hE]
    have hsorted := List.sorted_insertionSort leKey2 rs
    rw [hE, List.sorted_cons] at hsorted
    rw [hm]
    exact mergeRangesGo_sorted_chain tl lo hi hsorted.2 hsorted.1

/-- The valued merge output is sorted by the `(lo, hi, value)` key and its
consecutive entries differ in value or are separated by a gap. -/
theorem merge_valued_sorted_chain (rs : List (Nat × Nat × String)) :
    List.Sorted leKey3 (merge_valued_ranges rs) ∧
    List.Chain' (fun a b => a.2.2 ≠ b.2.2 ∨ a.2.1 + 1 < b.1) (merge_valued_ranges rs) := by
  cases hE : List.insertionSort leKey3 rs with
  | nil =>
    have hm : merge_valued_ranges rs = [] := by
      unfold merge_valued_ranges
      rw [hE]
    rw [hm]
    exact ⟨List.sorted_nil, List.chain'_nil⟩
  | cons hd tl =>
    obtain ⟨lo, hi, v⟩ := hd
    have hm : merge_valued_ranges rs = mergeValuedGo lo hi v tl := by
      unfold merge_valued_ranges
      rw [hE]
    have hsorted := List.sorted_insertionSort leKey3 rs
    rw [hE, List.sorted_cons] at hsorted
    rw [hm]
    exact mergeValuedGo_sorted_chain tl lo hi v hsorted.2 hsorted.1

/-- On a gap chain nothing merges: the loop copies its input. -/
theorem mergeRangesGo_noMerge : ∀ (l : List (Nat × Nat)) (curLo curHi : Nat),
    List.Chain (fun a b => a.2 + 1 < b.1) (curLo, curHi) l →
    mergeRangesGo curLo curHi l = (curLo, curHi) :: l := by
  intro l
  induction l with
  | nil => exact fun curLo curHi _ => rfl
  | cons p rest ih =>
    obtain ⟨lo, hi⟩ := p
    intro curLo curHi hch
    rw [List.chain_cons] at hch
    obtain ⟨hgap, hch'⟩ := hch
    dsimp only at hgap
    have h : ¬ lo ≤ curHi + 1 := by omega
    simp only [mergeRangesGo, if_neg h]
    rw [ih lo hi hch']

/-- On a chain of value changes or gaps nothing merges: the valued loop
copies its input. -/
theorem mergeValuedGo_noMerge :
    ∀ (l : List (Nat × Nat × String)) (curLo curHi : Nat) (curV : String),
    List.Chain (fun a b => a.2.2 ≠ b.2.2 ∨ a.2.1 + 1 < b.1) (curLo, curHi, curV) l →
    mergeValuedGo curLo curHi curV l = (curLo, curHi, curV) :: l := by
  intro l
  induction l with
  | nil => exact fun curLo curHi curV _ => rfl
  | cons p rest ih =>
    obtain ⟨lo, hi, v⟩ := p
    intro curLo curHi curV hch
    rw [List.chain_cons] at hch
    obtain ⟨hgap, hch'⟩ := hch
    dsimp only at hgap
    have h : ¬ (v = curV ∧ lo ≤ curHi + 1) := by
      rcases hgap with hne | hlt
      · exact fun hx => hne hx.1.symm
      · exact fun hx => by omega
    simp only [mergeValuedGo, if_neg h]
    rw [ih lo hi v hch']

/-- A list that is sorted with gapped consecutive entries is a fixed point of
the unvalued merge. -/
theorem merge_ranges_fix (out : List (Nat × Nat)) (hS : List.Sorted leKey2 out)
    (hC : List.Chain' (fun a b => a.2 + 1 < b.1) out) : merge_ranges out = out := by
  unfold merge_ranges
  rw [hS.insertionSort_eq]
  cases out with
  | nil => rfl
  | cons hd tl =>
    obtain ⟨lo, hi⟩ := hd
    exact mergeRangesGo_noMerge tl lo hi hC

/-- A list that is sorted whose consecutive entries change value or leave a
gap is a fixed point of the valued merge. -/
theorem merge_valued_ranges_fix (out : List (Nat × Nat × String))
    (hS : List.Sorted leKey3 out)
    (hC : List.Chain' (fun a b => a.2.2 ≠ b.2.2 ∨ a.2.1 + 1 < b.1) out) :
    merge_valued_ranges out = out := by
  unfold merge_valued_ranges
  rw [hS.insertionSort_eq]
  cases out with
  | nil => rfl
  | cons hd tl =>
    obtain ⟨lo, hi, v⟩ := hd
    exact mergeValuedGo_noMerge tl lo hi v hC

/-- C4: both merge operations are idempotent: re-merging an already-merged
list yields the identical list. -/
theorem merge_idempotent :
    (∀ l : List (Nat × Nat), merge_ranges (merge_ranges l) = merge_ranges l) ∧
    (∀ l : List (Nat × Nat × String),
      merge_valued_ranges (merge_valued_ranges l) = merge_valued_ranges l) := by
  constructor
  · intro l
    obtain ⟨hS, hC⟩ := merge_ranges_sorted_chain l
    exact merge_ranges_fix (merge_ranges l) hS hC
  · intro l
    obtain ⟨hS, hC⟩ := merge_valued_sorted_chain l
    exact merge_valued_ranges_fix (merge_valued_ranges l) hS hC

/-- C8: both merge policies are deterministic in the input order: permuting
the input rows does not change the output, because each policy first sorts by
a key that covers the entire row. -/
theorem merge_deterministic :
    (∀ l l' : List (Nat × Nat), l.Perm l' → merge_ranges l = merge_ranges l') ∧
    (∀ l l' : List (Nat × Nat × String), l.Perm l' →
      merge_valued_ranges l = merge_valued_ranges l') := by
  constructor
  · intro l l' h
    unfold merge_ranges
    rw [List.eq_of_perm_of_sorted
      ((List.perm_insertionSort leKey2 l).trans (h.trans (List.perm_insertionSort leKey2 l').symm))
      (List.sorted_insertionSort leKey2 l) (List.sorted_insertionSort leKey2 l')]
  · intro l l' h
    unfold merge_valued_ranges
    rw [List.eq_of_perm_of_sorted
      ((List.perm_insertionSort leKey3 l).trans (h.trans (List.perm_insertionSort leKey3 l').symm))
      (List.sorted_insertionSort leKey3 l) (List.sorted_insertionSort leKey3 l')]

/-- Witness for C8 at a concrete transposition of two ranges. -/
theorem merge_deterministic_witness :
    (List.Perm [((1 : Nat), (2 : Nat)), (4, 5)] [(4, 5), (1, 2)]) ∧
    merge_ranges [(1, 2), (4, 5)] = merge_ranges [(4, 5), (1, 2)] :=
  ⟨by decide, merge_deterministic.1 [(1, 2), (4, 5)] [(4, 5), (1, 2)] (by decide)⟩

/-- The validator walk accepts exactly when the first entry clears `prevHi`
and every consecutive pair of the walked list is strictly separated. -/
theorem adsGo_ok_iff : ∀ (l : List (Nat × Nat × String)) (prevHi : Int),
    (∀ hd ∈ l.head?, prevHi < (hd.1 : Int)) →
    (adsGo prevHi l = Except.ok () ↔ List.Chain' (fun a b => a.2.1 < b.1) l) := by
  intro l
  induction l with
  | nil =>
    intro prevHi _
    simp [adsGo]
  | cons p rest ih =>
    obtain ⟨lo, hi, v⟩ := p
    intro prevHi hh
    have hlt : prevHi < (lo : Int) := hh (lo, hi, v) rfl
    have hcond : ¬ ((lo : Int) ≤ prevHi) := not_le.mpr hlt
    simp only [adsGo, if_neg hcond]
    cases rest with
    | nil => simp [adsGo]
    | cons q rest' =>
      obtain ⟨lo', hi', v'⟩ := q
      rw [List.chain'_cons]
      by_cases hlt2 : hi < lo'
      · have hh' : ∀ hd ∈ ((lo', hi', v') :: rest').head?, (hi : Int) < (hd.1 : Int) := by
          intro hd hm
          cases hm
          exact_mod_cast hlt2
        rw [ih (hi : Int) hh']
        simp [hlt2]
      · have hcond2 : (lo' : Int) ≤ (hi : Int) := by exact_mod_cast not_lt.mp hlt2
        simp only [adsGo, if_pos hcond2]
        constructor
        · intro h
          cases h
        · intro h
          exact absurd h.1 hlt2

/-- When the validator walk raises, either the first entry clashes with the
incoming `prevHi`, or some adjacent pair of the walked list overlaps at the
reported `lo`. -/
theorem adsGo_error_decomp : ∀ (l : List (Nat × Nat × String)) (prevHi : Int) (lo : Nat),
    adsGo prevHi l = Except.error lo →
    (∃ hd t, l = hd :: t ∧ hd.1 = lo ∧ (lo : Int) ≤ prevHi) ∨
    (∃ l1 a b l2, l = l1 ++ a :: b :: l2 ∧ b.1 = lo ∧ b.1 ≤ a.2.1) := by
  intro l
  induction l with
  | nil =>
    intro prevHi lo h
    exact absurd h (by simp [adsGo])
  | cons p rest ih =>
    obtain ⟨lo', hi', v'⟩ := p
    intro prevHi lo h
    by_cases hcond : (lo' : Int) ≤ prevHi
    · simp only [adsGo, if_pos hcond] at h
      have : lo' = lo := by injection h
      subst this
      exact Or.inl ⟨(lo', hi', v'), rest, rfl, rfl, hcond⟩
    · simp only [adsGo, if_neg hcond] at h
      rcases ih (hi' : Int) lo h with ⟨hd, t, he, h1, h2⟩ | ⟨l1, a, b, l2, he, h1, h2⟩
      · refine Or.inr ⟨[], (lo', hi', v'), hd, t, ?_, h1, ?_⟩
        · rw [he]
          rfl
        · have : lo ≤ hi' := by exact_mod_cast h2
          simpa [h1] using this
      · exact Or.inr ⟨(lo', hi', v') :: l1, a, b, l2, by rw [he]; rfl, h1, h2⟩

/-- Any output of the unvalued merge, tagged with an arbitrary value, passes
the validator. -/
theorem assert_accepts_merged (l : List (Nat × Nat)) (v : String) :
    assert_disjoint_sorted ((merge_ranges l).map (fun p => (p.1, p.2, v))) = Except.ok () := by
  obtain ⟨hS, hC⟩ := merge_ranges_sorted_chain l
  have hSm : List.Sorted leKeyLoHi ((merge_ranges l).map (fun p => (p.1, p.2, v))) := by
    refine hS.map _ ?_
    intro a b hab
    simp only [leKey2] at hab
    simp only [leKeyLoHi]
    omega
  have hCm : List.Chain' (fun a b => a.2.1 < b.1)
      ((merge_ranges l).map (fun p => (p.1, p.2, v))) := by
    refine List.chain'_map_of_chain' _ ?_ hC
    intro a b hab
    dsimp only
    omega
  unfold assert_disjoint_sorted
  rw [hSm.insertionSort_eq]
  rw [adsGo_ok_iff _ _ ?hd]
  · exact hCm
  · intro hd _
    exact lt_of_lt_of_le (by norm_num) (Int.natCast_nonneg _)

/-- C3 (amended): the validator accepts exactly the lists whose `(lo, hi)`
re-sort has every entry's `lo` strictly above the previous entry's `hi`; on
rejection the reported `lo` is an offending entry's `lo`; every unvalued
merge output (under any value tagging) is accepted — but not every valued
merge output, see the counterexample. -/
theorem assert_disjoint_sorted_spec :
    (∀ rs : List (Nat × Nat × String),
      (assert_disjoint_sorted rs = Except.ok () ↔
        List.Chain' (fun a b => a.2.1 < b.1) (List.insertionSort leKeyLoHi rs)) ∧
      (∀ lo, assert_disjoint_sorted rs = Except.error lo →
        ∃ l1 a b l2, List.insertionSort leKeyLoHi rs = l1 ++ a :: b :: l2 ∧
          b.1 = lo ∧ b.1 ≤ a.2.1)) ∧
    (∀ (l : List (Nat × Nat)) (v : String),
      assert_disjoint_sorted ((merge_ranges l).map (fun p => (p.1, p.2, v))) = Except.ok ()) := by
  refine ⟨fun rs => ⟨?_, ?_⟩, assert_accepts_merged⟩
  · unfold assert_disjoint_sorted
    refine adsGo_ok_iff _ _ ?_
    intro hd _
    exact lt_of_lt_of_le (by norm_num) (Int.natCast_nonneg _)
  · intro lo h
    unfold assert_disjoint_sorted at h
    rcases adsGo_error_decomp _ _ _ h with ⟨hd, t, _, _, h2⟩ | hdecomp
    · have : (0 : Int) ≤ (lo : Int) := Int.natCast_nonneg _
      omega
    · exact hdecomp

/-- Counterexample to C3 as stated: the valued merge, fed two valid rows with
different values that overlap, emits an overlapping list which the validator
rejects (with the offending `lo = 3`) rather than accepts. -/
theorem assert_disjoint_sorted_rejects_merger_output :
    merge_valued_ranges [(0, 5, "A"), (3, 8, "B")] = [(0, 5, "A"), (3, 8, "B")] ∧
    assert_disjoint_sorted (merge_valued_ranges [(0, 5, "A"), (3, 8, "B")]) = Except.error 3 :=
  ⟨by decide, rfl⟩

/-- Witness for C3 (amended) at a concrete overlapping list: the validator
reports `lo = 11` and the sorted list indeed has an adjacent overlapping
pair at `11`. -/
theorem assert_disjoint_sorted_spec_witness :
    (assert_disjoint_sorted [(0, 5, "A"), (10, 12, "B"), (11, 13, "C")] = Except.error 11) ∧
    (∃ l1 a b l2,
      List.insertionSort leKeyLoHi [(0, 5, "A"), (10, 12, "B"), (11, 13, "C")] =
        l1 ++ a :: b :: l2 ∧ b.1 = 11 ∧ b.1 ≤ a.2.1) :=
  ⟨rfl, (assert_disjoint_sorted_spec.1 [(0, 5, "A"), (10, 12, "B"), (11, 13, "C")]).2 11 rfl⟩


theorem parseHexCore_append (a b : Nat) (xs ys : List Char)
    (h : parseHexCore a xs = some b) :
    parseHexCore a (xs ++ ys) = parseHexCore b ys := by
  induction xs generalizing a with
  | nil =>
    simp only [parseHexCore] at h
    injection h with h
    subst h
    rfl
  | cons c xs ih =>
    simp only [parseHexCore] at h ⊢
    cases hc : hexVal c with
    | none => rw [hc] at h; exact absurd h (by simp)
    | some d =>
      rw [hc] at h
      exact ih _ h

theorem hexVal_hexDigitChar : ∀ d, d < 16 → hexVal (hexDigitChar d) = some d := by decide

theorem parseHexCore_single (a d : Nat) (h : d < 16) :
    parseHexCore a [hexDigitChar d] = some (16 * a + d) := by
  simp [parseHexCore, hexVal_hexDigitChar d h]

/-- The fueled digit loop produces exactly the base-16 digits, most
significant first, followed by the accumulator. -/
theorem toHexLoop_eq_digits : ∀ (fuel n : Nat) (acc : List Char), n ≤ fuel →
    toHexLoop fuel n acc = ((Nat.digits 16 n).reverse.map hexDigitChar) ++ acc := by
  intro fuel
  induction fuel with
  | zero =>
    intro n acc h
    have hn : n = 0 := Nat.le_zero.mp h
    subst hn
    simp [toHexLoop]
  | succ fuel ih =>
    intro n acc h
    by_cases hn : n = 0
    · subst hn
      simp [toHexLoop]
    · simp only [toHexLoop, if_neg hn]
      rw [ih (n / 16) _ (by omega)]
      rw [Nat.digits_def' (by norm_num : (1 : Nat) < 16) (Nat.pos_of_ne_zero hn)]
      simp [List.reverse_cons, List.map_append]

/-- Parsing the big-endian rendering of a digit list recovers its value. -/
theorem parse_digits_rev : ∀ (ds : List Nat), (∀ d ∈ ds, d < 16) → ∀ a : Nat,
    parseHexCore a (ds.reverse.map hexDigitChar) =
      some (a * 16 ^ ds.length + Nat.ofDigits 16 ds) := by
  intro ds
  induction ds with
  | nil =>
    intro _ a
    simp [parseHexCore, Nat.ofDigits_nil]
  | cons d ds ih =>
    intro h a
    have hd : d < 16 := h d (List.mem_cons_self _ _)
    have h1 := ih (fun x hx => h x (List.mem_cons_of_mem _ hx)) a
    calc parseHexCore a ((d :: ds).reverse.map hexDigitChar)
        = parseHexCore a ((ds.reverse.map hexDigitChar) ++ [hexDigitChar d]) := by
          simp [List.reverse_cons]
      _ = parseHexCore (a * 16 ^ ds.length + Nat.ofDigits 16 ds) [hexDigitChar d] :=
          parseHexCore_append _ _ _ _ h1
      _ = some (16 * (a * 16 ^ ds.length + Nat.ofDigits 16 ds) + d) :=
          parseHexCore_single _ _ hd
      _ = some (a * 16 ^ (d :: ds).length + Nat.ofDigits 16 (d :: ds)) := by
          rw [Nat.ofDigits_cons, List.length_cons]
          congr 1
          ring

theorem parseHexDigits_eq_core (c : Char) (rest : List Char) :
    parseHexDigits (c :: rest) = parseHexCore 0 (c :: rest) := by
  simp only [parseHexDigits, parseHexCore]
  cases hexVal c <;> simp

/-- Leading zeros do not change the parsed value. -/
theorem parseHexCore_pad (k : Nat) (cs : List Char) :
    parseHexCore 0 (List.replicate k '0' ++ cs) = parseHexCore 0 cs := by
  induction k with
  | zero => simp
  | succ k ih =>
    simp only [List.replicate_succ, List.cons_append]
    rw [show parseHexCore 0 ('0' :: (List.replicate k '0' ++ cs)) =
      parseHexCore 0 (List.replicate k '0' ++ cs) from rfl, ih]

/-- The minimal-width rendering is nonempty. -/
theorem toHexUpper_ne_nil (x : Nat) : (toHexUpper x).data ≠ [] := by
  by_cases hx : x = 0
  · subst hx
    intro h
    cases h
  · unfold toHexUpper
    rw [if_neg hx]
    rw [show (String.mk (toHexLoop (x + 1) x [])).data = toHexLoop (x + 1) x [] from rfl]
    rw [toHexLoop_eq_digits (x + 1) x [] (by omega)]
    simp [Nat.digits_ne_nil_iff_ne_zero.mpr hx]

/-- Parsing the minimal-width rendering recovers the value. -/
theorem parse_toHexUpper (x : Nat) : parseHexDigits (toHexUpper x).data = some x := by
  by_cases hx : x = 0
  · subst hx
    rfl
  · unfold toHexUpper
    rw [if_neg hx]
    rw [show (String.mk (toHexLoop (x + 1) x [])).data = toHexLoop (x + 1) x [] from rfl]
    rw [toHexLoop_eq_digits (x + 1) x [] (by omega)]
    simp only [List.append_nil]
    cases hE : (Nat.digits 16 x).reverse.map hexDigitChar with
    | nil =>
      exfalso
      rw [List.map_eq_nil_iff, List.reverse_eq_nil_iff] at hE
      exact Nat.digits_ne_nil_iff_ne_zero.mpr hx hE
    | cons c rest =>
      rw [parseHexDigits_eq_core, ← hE]
      rw [parse_digits_rev (Nat.digits 16 x)
        (fun d hd => Nat.digits_lt_base (by norm_num) hd) 0]
      simp [Nat.ofDigits_digits]

/-- The number of hex digits of `x ≤ 0xFFFF` is at most 4. -/
theorem toHexUpper_len_le (x : Nat) (hx : x ≤ 0xFFFF) : (toHexUpper x).length ≤ 4 := by
  by_cases h0 : x = 0
  · subst h0
    decide
  · unfold toHexUpper
    rw [if_neg h0]
    rw [show (String.mk (toHexLoop (x + 1) x [])).length = (toHexLoop (x + 1) x []).length
      from rfl]
    rw [toHexLoop_eq_digits (x + 1) x [] (by omega)]
    simp only [List.append_nil, List.length_map, List.length_reverse]
    by_contra hlen
    have h5 : 5 ≤ (Nat.digits 16 x).length := by omega
    have hp : (16 : Nat) ^ 5 ≤ 16 ^ (Nat.digits 16 x).length :=
      Nat.pow_le_pow_right (by norm_num) h5
    have hle := Nat.base_pow_length_digits_le 16 x (by norm_num) h0
    omega

/-- C5: the numeric formatter renders `x ≤ 0xFFFF` as `0x` + 4 zero-padded
uppercase hex digits + `u`, renders `x > 0xFFFF` as `0x` + minimal-width hex
digits (no leading zero) + `u`, and parsing the rendered digits back as
hexadecimal recovers `x`; verified in particular at `0x0`, `0xFFFF`,
`0x10000`, `0x10FFFF`. -/
theorem fmt_u32_spec :
    (∀ x : Nat,
      (x ≤ 0xFFFF →
        fmt_u32 x = ("0x") ++ pad4 (toHexUpper x) ++ ("u") ∧
        (pad4 (toHexUpper x)).length = 4 ∧
        parseHexDigits (pad4 (toHexUpper x)).data = some x) ∧
      (0xFFFF < x →
        fmt_u32 x = ("0x") ++ toHexUpper x ++ ("u") ∧
        (toHexUpper x).data.head? ≠ some '0' ∧
        parseHexDigits (toHexUpper x).data = some x)) ∧
    fmt_u32 0x0 = ("0x0000u") ∧ fmt_u32 0xFFFF = ("0xFFFFu") ∧
    fmt_u32 0x10000 = ("0x10000u") ∧ fmt_u32 0x10FFFF = ("0x10FFFFu") := by
  refine ⟨fun x => ⟨fun hx => ⟨?_, ?_, ?_⟩, fun hx => ⟨?_, ?_, ?_⟩⟩, by decide, by decide,
    by decide, by decide⟩
  · unfold fmt_u32
    rw [if_pos hx]
  · unfold pad4
    rw [show (String.mk (List.replicate (4 - (toHexUpper x).length) '0' ++
      (toHexUpper x).data)).length =
      (List.replicate (4 - (toHexUpper x).length) '0' ++ (toHexUpper x).data).length from rfl]
    rw [List.length_append, List.length_replicate]
    have hlen := toHexUpper_len_le x hx
    have hdata : (toHexUpper x).data.length = (toHexUpper x).length := rfl
    omega
  · unfold pad4
    rw [show (String.mk (List.replicate (4 - (toHexUpper x).length) '0' ++
      (toHexUpper x).data)).data =
      List.replicate (4 - (toHexUpper x).length) '0' ++ (toHexUpper x).data from rfl]
    cases hE : List.replicate (4 - (toHexUpper x).length) '0' ++ (toHexUpper x).data with
    | nil =>
      exfalso
      rcases List.append_eq_nil.mp hE with ⟨_, h2⟩
      exact toHexUpper_ne_nil x h2
    | cons c rest =>
      rw [parseHexDigits_eq_core, ← hE, parseHexCore_pad]
      cases hF : (toHexUpper x).data with
      | nil => exact absurd hF (toHexUpper_ne_nil x)
      | cons c' rest' =>
        rw [← parseHexDigits_eq_core, ← hF]
        exact parse_toHexUpper x
  · unfold fmt_u32
    rw [if_neg (by omega)]
  · have hx0 : x ≠ 0 := by omega
    unfold toHexUpper
    rw [if_neg hx0]
    rw [show (String.mk (toHexLoop (x + 1) x [])).data = toHexLoop (x + 1) x [] from rfl]
    rw [toHexLoop_eq_digits (x + 1) x [] (by omega)]
    simp only [List.append_nil, List.head?_map, List.head?_reverse]
    rw [List.getLast?_eq_getLast_of_ne_nil (Nat.digits_ne_nil_iff_ne_zero.mpr hx0)]
    have hlast := Nat.getLast_digit_ne_zero 16 hx0
    have hmem : (Nat.digits 16 x).getLast (Nat.digits_ne_nil_iff_ne_zero.mpr hx0) ∈
        Nat.digits 16 x := List.getLast_mem _
    have hlt : (Nat.digits 16 x).getLast (Nat.digits_ne_nil_iff_ne_zero.mpr hx0) < 16 :=
      Nat.digits_lt_base (by norm_num) hmem
    have hne : ∀ d, d < 16 → d ≠ 0 → hexDigitChar d ≠ '0' := by decide
    intro h
    exact hne _ hlt hlast (by injection h)
  · exact parse_toHexUpper x

/-- Witness for C5 at `x = 0x10FFFF` (large branch) exercising the round
trip. -/
theorem fmt_u32_spec_witness :
    (0xFFFF < 0x10FFFF) ∧
    (fmt_u32 0x10FFFF = ("0x") ++ toHexUpper 0x10FFFF ++ ("u") ∧
     (toHexUpper 0x10FFFF).data.head? ≠ some '0' ∧
     parseHexDigits (toHexUpper 0x10FFFF).data = some 0x10FFFF) :=
  ⟨by decide, (fmt_u32_spec.1 0x10FFFF).2 (by decide)⟩

/-- A successful regex match forces a nonempty stripped line whose first
character is in `[0-9A-Fa-f.]`, hence not `#`. -/
theorem matchDataRe_head {s : String} {cp prop : String}
    (h : matchDataRe s = some (cp, prop)) :
    s.data.isEmpty = false ∧ s.data.head? ≠ some '#' := by
  unfold matchDataRe at h
  cases hcs : s.data with
  | nil =>
    rw [hcs] at h
    exact absurd h (by simp)
  | cons c cs' =>
    rw [hcs] at h
    by_cases hc : isHexDotChar c
    · refine ⟨rfl, ?_⟩
      intro heq
      injection heq with heq
      rw [heq] at hc
      exact absurd hc (by decide)
    · rw [List.takeWhile_cons_of_neg hc] at h
      exact absurd h (by simp)

/-- C7 (amended): blank lines, comment lines and lines the recognizer
pattern does not match yield no row and no error; in particular
`"zzzz; Foo"` is skipped silently.  (Lines the pattern does match but whose
codepoint field is not parseable hex raise a format error instead — see the
counterexample.) -/
theorem parser_skips_silently :
    (∀ (src : String) (wanted : Option (List String)) (line : String),
      ((pyStrip line).data.isEmpty ∨ (pyStrip line).data.head? = some '#' ∨
        matchDataRe (pyStrip line) = none) →
      parseLine src wanted line = Except.ok none) ∧
    parse_property_file ("f") none [("zzzz; Foo")] = Except.ok [] := by
  constructor
  · intro src wanted line h
    unfold parseLine
    by_cases h0 : (pyStrip line).data.isEmpty
    · rw [if_pos h0]
    · rw [if_neg h0]
      by_cases h1 : (pyStrip line).data.head? = some '#'
      · rw [if_pos h1]
      · rw [if_neg h1]
        rcases h with h | h | h
        · exact absurd h h0
        · exact absurd h h1
        · rw [h]
  · rfl

/-- Counterexample to C7 as stated: the line `"1.5; Foo"` does not have the
shape `<codepoint>[..<codepoint>] ; <name>` (its field `1.5` is not a
codepoint nor a `..` range), yet the parser raises the format error of
`int("1.5", 16)` rather than skipping the line silently. -/
theorem parser_skip_counterexample :
    parse_property_file ("f") none [("1.5; Foo")] =
      Except.error (ParseErr.formatErr ("1.5")) ∧
    matchDataRe (pyStrip ("1.5; Foo")) = some (("1.5"), ("Foo")) :=
  ⟨rfl, by decide⟩

/-- Witness for C7 (amended) at the spec scenario `"zzzz; Foo"`. -/
theorem parser_skips_silently_witness :
    ((pyStrip ("zzzz; Foo")).data.isEmpty ∨
      (pyStrip ("zzzz; Foo")).data.head? = some '#' ∨
      matchDataRe (pyStrip ("zzzz; Foo")) = none) ∧
    parseLine ("f") none ("zzzz; Foo") = Except.ok none :=
  ⟨by decide, parser_skips_silently.1 ("f") none ("zzzz; Foo") (by decide)⟩

/-- C6 (amended): on a line the recognizer matches, whose codepoint field
parses, and whose property passes the wanted filter, the parser raises
RangeError — carrying the raw field and the source identity — exactly when
`hi > 0x10FFFF` or `lo > hi` (`lo < 0` cannot occur: the field parses to a
nonnegative integer); in particular `"110000; Control"` raises it when
Control is wanted. -/
theorem parse_range_error_iff :
    (∀ (src : String) (wanted : Option (List String)) (line cp prop : String) (lo hi : Nat),
      matchDataRe (pyStrip line) = some (cp, prop) →
      wantedDrop wanted prop = false →
      parse_codepoint_range cp = some (lo, hi) →
      (parseLine src wanted line = Except.error (ParseErr.rangeErr cp src) ↔
        (0x10FFFF < hi ∨ hi < lo))) ∧
    parse_property_file ("GraphemeBreakProperty.txt") none [("110000; Control")] =
      Except.error (ParseErr.rangeErr ("110000") ("GraphemeBreakProperty.txt")) := by
  constructor
  · intro src wanted line cp prop lo hi hmatch hdrop hrange
    obtain ⟨h0, h1⟩ := matchDataRe_head hmatch
    unfold parseLine
    rw [if_neg (by rw [h0]; exact Bool.false_ne_true), if_neg h1, hmatch]
    dsimp only
    rw [hdrop]
    simp only [Bool.false_eq_true, if_false]
    unfold parseLineRow
    rw [hrange]
    dsimp only
    by_cases hc : 0x10FFFF < hi ∨ hi < lo
    · rw [if_pos hc]
      simp [hc]
    · rw [if_neg hc]
      simp [hc]
  · rfl

/-- Counterexample to C6 as stated: with a wanted filter that excludes
`Control`, the line `"110000; Control"` matches the record shape and has
`hi = 0x110000 > 0x10FFFF`, yet the parser raises nothing: the filter is
applied before the range check. -/
theorem parse_range_error_filtered_counterexample :
    parse_property_file ("f") (some [("Foo")]) [("110000; Control")] = Except.ok [] ∧
    matchDataRe (pyStrip ("110000; Control")) = some (("110000"), ("Control")) ∧
    parse_codepoint_range ("110000") = some (0x110000, 0x110000) ∧
    0x10FFFF < 0x110000 :=
  ⟨rfl, by decide, by decide, by decide⟩

/-- Witness for C6 (amended) at `"110000; Control"` with no wanted filter. -/
theorem parse_range_error_iff_witness :
    (matchDataRe (pyStrip ("110000; Control")) = some (("110000"), ("Control"))) ∧
    (wantedDrop none ("Control") = false) ∧
    (parse_codepoint_range ("110000") = some (0x110000, 0x110000)) ∧
    (parseLine ("GraphemeBreakProperty.txt") none ("110000; Control") =
        Except.error (ParseErr.rangeErr ("110000") ("GraphemeBreakProperty.txt")) ↔
      ((0x10FFFF : Nat) < 0x110000 ∨ (0x110000 : Nat) < 0x110000)) :=
  ⟨by decide, rfl, by decide,
    parse_range_error_iff.1 ("GraphemeBreakProperty.txt") none ("110000; Control")
      ("110000") ("Control") 0x110000 0x110000 (by decide) rfl (by decide)⟩

/-- When the per-row emission succeeds, every row's property resolved
through `gcb_map`. -/
theorem emitRows8_ok_mapped : ∀ (rows : List (Nat × Nat × String)) (ls : List String),
    emitRows8 rows = Except.ok ls → ∀ r ∈ rows, (List.lookup r.2.2 gcb_map).isSome := by
  intro rows
  induction rows with
  | nil =>
    intro ls _ r hr
    cases hr
  | cons p rest ih =>
    obtain ⟨lo, hi, prop⟩ := p
    intro ls h r hr
    simp only [emitRows8] at h
    cases hlk : List.lookup prop gcb_map with
    | none =>
      rw [hlk] at h
      exact absurd h (by simp)
    | some en =>
      rw [hlk] at h
      rcases List.mem_cons.mp hr with rfl | hr'
      · simp [hlk]
      · cases hrec : emitRows8 rest with
        | error e =>
          rw [hrec] at h
          exact absurd h (by simp)
        | ok ls' => exact ih ls' hrec r hr'

/-- C9: a run writes nothing when any stage fails (parse RangeError,
validation OverlapError, or emission UnmappedSymbolError), and on success it
performs exactly one write, of the fully materialized artifact, after the
GCB rows parsed, passed validation, and had every property name resolved. -/
theorem pipeline_no_partial_output (g e w : List String) :
    ((runPipeline g e w).2 ≠ none → (runPipeline g e w).1 = []) ∧
    ((runPipeline g e w).2 = none →
      ∃ s, (runPipeline g e w).1 = [s] ∧
        ∃ gcbRows, parse_property_file ("GraphemeBreakProperty.txt") (some gcb_props) g =
            Except.ok gcbRows ∧
          assert_disjoint_sorted (merge_valued_ranges gcbRows) = Except.ok () ∧
          ∀ r ∈ merge_valued_ranges gcbRows, (List.lookup r.2.2 gcb_map).isSome) := by
  unfold runPipeline
  cases hP : pipelineText g e w with
  | error err =>
    constructor
    · intro _
      rfl
    · intro h
      exact absurd h (by simp)
  | ok s =>
    constructor
    · intro h
      exact absurd rfl h
    · intro _
      refine ⟨s, rfl, ?_⟩
      unfold pipelineText at hP
      cases hg : parse_property_file ("GraphemeBreakProperty.txt") (some gcb_props) g with
      | error e' =>
        rw [hg] at hP
        exact absurd hP (by simp)
      | ok gcbRows =>
        rw [hg] at hP
        dsimp only at hP
        cases ha : assert_disjoint_sorted (merge_valued_ranges gcbRows) with
        | error lo =>
          rw [ha] at hP
          exact absurd hP (by simp)
        | ok u =>
          rw [ha] at hP
          dsimp only at hP
          cases u
          refine ⟨gcbRows, rfl, ha, ?_⟩
          cases he : parse_property_file ("emoji-data.txt")
              (some [("Extended_Pictographic"), ("Emoji_Presentation")]) e with
          | error e' =>
            rw [he] at hP
            exact absurd hP (by simp)
          | ok emojiRows =>
            rw [he] at hP
            dsimp only at hP
            cases hw : parse_property_file ("EastAsianWidth.txt") (some [("W"), ("F")]) w with
            | error e' =>
              rw [hw] at hP
              exact absurd hP (by simp)
            | ok eawRows =>
              rw [hw] at hP
              dsimp only at hP
              unfold emit_inc at hP
              cases h8 : emit_ranges8 ("kGcbRanges") (merge_valued_ranges gcbRows) with
              | error e' =>
                rw [h8] at hP
                exact absurd hP (by simp)
              | ok s8 =>
                unfold emit_ranges8 at h8
                cases hrows : emitRows8 (merge_valued_ranges gcbRows) with
                | error e' =>
                  rw [hrows] at h8
                  exact absurd h8 (by simp)
                | ok ls => exact emitRows8_ok_mapped _ ls hrows

/-- Witness for C9 at a one-line GCB input that succeeds end to end. -/
theorem pipeline_no_partial_output_witness :
    ((runPipeline [("0041;L")] [] []).2 = none) ∧
    (∃ s, (runPipeline [("0041;L")] [] []).1 = [s] ∧
      ∃ gcbRows, parse_property_file ("GraphemeBreakProperty.txt") (some gcb_props)
          [("0041;L")] = Except.ok gcbRows ∧
        assert_disjoint_sorted (merge_valued_ranges gcbRows) = Except.ok () ∧
        ∀ r ∈ merge_valued_ranges gcbRows, (List.lookup r.2.2 gcb_map).isSome) :=
  ⟨rfl, (pipeline_no_partial_output [("0041;L")] [] []).2 rfl⟩

end Zireael
